import Mathlib

/-!
Verification of the tree-presentation app (src/index.tsx).

The source is a React page visualizing tree data structures.  Its logic core,
embedded below, consists of:
  - the `NodeData` record (`Node` here) with optional left/right/middle
    children, an optional ordered child list for general trees, render
    coordinates, and an `isNew` animation flag;
  - `clearNewFlags` and `insertBSTImmutable` (BST builder helpers);
  - `getTraversalOrder` (preorder/inorder/postorder walks) and `findVal`;
  - the two `calculatePositions` layout recursions (MiniTreeVisualizer and
    TreeVisualizer variants), over exact rationals;
  - the input parsing and state update of `handleStartConstruction`;
  - the hard-coded `TREE_PRESETS` trees.

JavaScript numbers are modelled as `Int` (all numbers occurring in the
program and its inputs are integers; layout coordinates are modelled as `ℚ`
since they arise from exact divisions).  JavaScript object mutation is
absent from the modelled functions (they only build new objects with spread
syntax); a separate explicit-heap model (`Heap`, `insertBSTHeap`,
`clearNewFlagsHeap`) is used to state that insertion and flag-clearing do
not write to any pre-existing node.
-/

/-- A `NodeData.value`: JavaScript `number | string`.  Numbers are modelled
as integers (every number in the program is an integer). -/
inductive Value : Type where
  | num (n : Int)
  | str (s : String)
deriving DecidableEq, Repr

/-- The `NodeData` record of src/index.tsx (lines 30-40): an id string, a
value, optional left/right children, an optional middle child (ternary
trees), an optional ordered child list (general trees), optional render
coordinates `x`/`y`, and an optional `isNew` animation flag.  Optional
fields model the `?:` fields of the TypeScript type; `none` is JavaScript
`undefined`. -/
inductive Node : Type where
  | mk (id : String) (value : Value) (left right middle : Option Node)
       (children : Option (List Node)) (x y : Option ℚ) (isNew : Option Bool)

def Node.id : Node → String
  | .mk i _ _ _ _ _ _ _ _ => i

def Node.value : Node → Value
  | .mk _ v _ _ _ _ _ _ _ => v

def Node.left : Node → Option Node
  | .mk _ _ l _ _ _ _ _ _ => l

def Node.right : Node → Option Node
  | .mk _ _ _ r _ _ _ _ _ => r

def Node.middle : Node → Option Node
  | .mk _ _ _ _ m _ _ _ _ => m

def Node.children : Node → Option (List Node)
  | .mk _ _ _ _ _ cs _ _ _ => cs

def Node.x : Node → Option ℚ
  | .mk _ _ _ _ _ _ x _ _ => x

def Node.y : Node → Option ℚ
  | .mk _ _ _ _ _ _ _ y _ => y

def Node.isNew : Node → Option Bool
  | .mk _ _ _ _ _ _ _ _ f => f

/-- The JavaScript comparison `val < (root.value as number)` of
`insertBSTImmutable` (line 137).  For a string-labelled node the comparison
coerces and the labels used by the program (non-numeric strings) give `NaN`,
so the comparison is `false`; only numeric-valued trees are ever passed to
the insert routine. -/
def ltVal (val : Int) : Value → Bool
  | .num n => val < n
  | .str _ => false

/-- The JavaScript comparison `val > (root.value as number)` (line 139),
modelled like `ltVal`. -/
def gtVal (val : Int) : Value → Bool
  | .num n => n < val
  | .str _ => false

/-- Numeric reading of a value, used by the specification-side predicates
(`valsN`, `isBSTN`) to state the BST ordering over node values. -/
def asNum : Value → Int
  | .num n => n
  | .str _ => 0

mutual

/-- `clearNewFlags` (src lines 125-130): copies the node with `isNew:
false`, recursing into `left` and `right` only; `middle`, `children`, `x`,
`y` are carried over unchanged by the object spread. -/
def clearNewFlags : Node → Node
  | .mk i v l r m cs x y _ =>
      .mk i v (clearNewFlagsO l) (clearNewFlagsO r) m cs x y (some false)

/-- The conditional `node.left ? clearNewFlags(node.left) : undefined`. -/
def clearNewFlagsO : Option Node → Option Node
  | none => none
  | some n => some (clearNewFlags n)

end

mutual

/-- The non-empty case of `insertBSTImmutable` (src lines 136-142):
`newNode = { ...root, isNew: false }`, then the recursive insertion into
`left` when `val < root.value`, into `right` when `val > root.value`, and
no structural change otherwise.  Returns the new node together with the
advanced id counter. -/
def insertNode : Node → Int → Nat → Node × Nat
  | .mk i v l r m cs x y _, val, c =>
    if ltVal val v then
      let p := insertBSTImmutable l val c
      (.mk i v (some p.1) r m cs x y (some false), p.2)
    else if gtVal val v then
      let p := insertBSTImmutable r val c
      (.mk i v l (some p.1) m cs x y (some false), p.2)
    else
      (.mk i v l r m cs x y (some false), c)

/-- `insertBSTImmutable` (src lines 132-143).  An absent root allocates a
fresh leaf whose id is the decimal string of the counter (the counter is
then advanced); `isNew` is set on the fresh leaf.  The counter reference
`idCounter` is modelled by explicit state passing. -/
def insertBSTImmutable : Option Node → Int → Nat → Node × Nat
  | none, val, c =>
      (.mk (Nat.repr c) (.num val) none none none none none none (some true), c + 1)
  | some n, val, c => insertNode n val c

end

mutual

/-- One traversal step of the `walk` closure in `getTraversalOrder` (src
lines 348-355): push the id before the children for preorder, between them
for inorder, after them for postorder. -/
def walkNode (type : String) : Node → List String
  | .mk i _ l r _ _ _ _ _ =>
      (if type = "preorder" then [i] else []) ++ walkOpt type l ++
      (if type = "inorder" then [i] else []) ++ walkOpt type r ++
      (if type = "postorder" then [i] else [])

/-- The `if (!n) return;` guard of the walk. -/
def walkOpt (type : String) : Option Node → List String
  | none => []
  | some n => walkNode type n

end

/-- `getTraversalOrder` (src lines 345-358): an absent tree yields the
empty order, otherwise the recursive walk collects node ids. -/
def getTraversalOrder (node : Option Node) (type : String) : List String :=
  match node with
  | none => []
  | some n => walkNode type n

/-- JavaScript truthiness of a `number | string` value: `0` and the empty
string are falsy. -/
def truthyVal : Value → Bool
  | .num n => n ≠ 0
  | .str s => s ≠ ""

/-- The `a || b` chaining of `findVal` results (a `null` or falsy value
falls through to the right operand). -/
def jsOr (a b : Option Value) : Option Value :=
  match a with
  | none => b
  | some v => if truthyVal v then some v else b

mutual

/-- `findVal` (src lines 774-778): returns the node value at a given id,
searching the node itself, then `left`, then `right`, chained with `||`. -/
def findValNode (n : Node) (targetId : String) : Option Value :=
  match n with
  | .mk i v l r _ _ _ _ _ =>
      if i = targetId then some v
      else jsOr (findValOpt l targetId) (findValOpt r targetId)

/-- The `node.left || null` argument guard of `findVal`. -/
def findValOpt : Option Node → String → Option Value
  | none, _ => none
  | some n, t => findValNode n t

end

/-- `TREE_PRESETS.binary` (src lines 43-47). -/
def TREE_PRESETS_binary : Node :=
  .mk "1" (.num 10)
    (some (.mk "2" (.num 5)
      (some (.mk "4" (.num 2) none none none none none none none))
      (some (.mk "5" (.num 7) none none none none none none none))
      none none none none none))
    (some (.mk "3" (.num 15)
      (some (.mk "6" (.num 12) none none none none none none none))
      (some (.mk "7" (.num 20) none none none none none none none))
      none none none none none))
    none none none none none

/-- `TREE_PRESETS.ternary` (src lines 56-61). -/
def TREE_PRESETS_ternary : Node :=
  .mk "t1" (.num 1)
    (some (.mk "t2" (.num 2) none none none none none none none))
    (some (.mk "t4" (.num 4) none none none none none none none))
    (some (.mk "t3" (.num 3) none none none none none none none))
    none none none none

/-- `TREE_PRESETS.general` (src lines 48-55). -/
def TREE_PRESETS_general : Node :=
  .mk "g1" (.str "R") none none none
    (some
      [ .mk "g2" (.str "A") none none none
          (some
            [ .mk "g5" (.str "D") none none none none none none none,
              .mk "g6" (.str "E") none none none none none none none,
              .mk "g7" (.str "F") none none none none none none none ])
          none none none,
        .mk "g3" (.str "B") none none none none none none none,
        .mk "g4" (.str "C") none none none
          (some [ .mk "g8" (.str "G") none none none none none none none ])
          none none none ])
    none none none

/-- Value of a decimal digit character, `none` for any other character. -/
def decDigit (c : Char) : Option Nat :=
  if '0' ≤ c ∧ c ≤ '9' then some (c.toNat - '0'.toNat) else none

/-- Value of a hexadecimal digit character, `none` for any other
character. -/
def hexDigit (c : Char) : Option Nat :=
  if '0' ≤ c ∧ c ≤ '9' then some (c.toNat - '0'.toNat)
  else if 'a' ≤ c ∧ c ≤ 'f' then some (c.toNat - 'a'.toNat + 10)
  else if 'A' ≤ c ∧ c ≤ 'F' then some (c.toNat - 'A'.toNat + 10)
  else none

/-- Accumulate the longest leading digit run. -/
def parseNatAux (base : Nat) (digit : Char → Option Nat) : List Char → Nat → Nat
  | [], acc => acc
  | c :: cs, acc =>
    match digit c with
    | none => acc
    | some d => parseNatAux base digit cs (acc * base + d)

/-- The longest leading digit run of a character list, `none` when the list
does not start with a digit (JavaScript `parseInt` yields `NaN` there). -/
def parseNatPrefix (base : Nat) (digit : Char → Option Nat) : List Char → Option Nat
  | [] => none
  | c :: cs =>
    match digit c with
    | none => none
    | some d => some (parseNatAux base digit cs d)

/-- JavaScript whitespace as relevant to `trim` and `parseInt` on this
program's inputs. -/
def isWsJS (c : Char) : Bool :=
  c = ' ' || c = '\t' || c = '\n' || c = '\r'

/-- JavaScript `String.prototype.trim`: drop leading and trailing
whitespace. -/
def trimChars (cs : List Char) : List Char :=
  ((cs.dropWhile isWsJS).reverse.dropWhile isWsJS).reverse

/-- JavaScript `String.prototype.split(",")` on a character list. -/
def splitCommaAux : List Char → List Char → List (List Char)
  | [], acc => [acc.reverse]
  | c :: cs, acc =>
      if c = ',' then acc.reverse :: splitCommaAux cs []
      else splitCommaAux cs (c :: acc)

def splitComma (cs : List Char) : List (List Char) :=
  splitCommaAux cs []

/-- JavaScript `parseInt(s)` with no radix argument, on the integer-valued
strings this program feeds it: skip leading whitespace, an optional sign,
then either a `0x`/`0X` hexadecimal literal or the longest leading decimal
digit run; `none` models `NaN`. -/
def parseIntJS (tok : List Char) : Option Int :=
  let cs := tok.dropWhile isWsJS
  let signed : Int × List Char :=
    match cs with
    | '-' :: rest => (-1, rest)
    | '+' :: rest => (1, rest)
    | _ => (1, cs)
  match signed.2 with
  | '0' :: x :: rest =>
    if x = 'x' ∨ x = 'X' then
      (parseNatPrefix 16 hexDigit rest).map (fun n => signed.1 * n)
    else
      (parseNatPrefix 10 decDigit signed.2).map (fun n => signed.1 * n)
  | _ => (parseNatPrefix 10 decDigit signed.2).map (fun n => signed.1 * n)

/-- The parse pipeline inlined in `handleStartConstruction` (src line 367):
split the input on commas, trim and `parseInt` each token, and keep the
tokens that parsed (the `!isNaN` filter).  This is the `buildOrder`
operation of the specification. -/
def buildOrder (input : String) : List Int :=
  ((splitComma input.toList).map (fun v => parseIntJS (trimChars v))).filterMap id

/-- The pieces of component state read or written by
`handleStartConstruction` (src lines 332-342, 366-376).  The id counter
reference is modelled as a plain field. -/
structure AppState where
  userInput : String
  customTree : Option Node
  isConstructing : Bool
  constructionQueue : List Int
  traversalStep : Int
  visited : List String
  idCounter : Nat

/-- `handleStartConstruction` (src lines 366-376): parse the input; when no
integers parsed, return with no state change; otherwise clear the tree and
playback progress, reset the id counter to 1, enqueue the parsed values and
raise the construction flag. -/
def handleStartConstruction (st : AppState) : AppState :=
  let values := buildOrder st.userInput
  if values.length = 0 then st
  else
    { st with
      customTree := none
      traversalStep := -1
      visited := []
      idCounter := 1
      constructionQueue := values
      isConstructing := true }

/-- One construction tick (src lines 388-396): clear the previous `isNew`
flags when a tree exists, then insert the next queued value with the
current id counter. -/
def constructionTick (prev : Option Node) (c : Nat) (nextVal : Int) : Node × Nat :=
  insertBSTImmutable (clearNewFlagsO prev) nextVal c

/-- A full build session: `handleStartConstruction` resets the id counter
to 1 and queues the values; the effect loop then applies one
`constructionTick` per queued value, threading the tree and counter. -/
def buildSession (vals : List Int) : Option Node × Nat :=
  vals.foldl
    (fun p v =>
      let q := constructionTick p.1 p.2 v
      (some q.1, q.2))
    ((none : Option Node), 1)

mutual

/-- `MiniTreeVisualizer.calculatePositions` (src lines 165-183): put the
node at the midpoint of its span at a depth-proportional height; a node
with a child list splits its span into equal bands, otherwise the left
child gets the left half-span, the middle child a fixed 30-wide band
centred on the midpoint, and the right child the right half-span.  In the
child-list branch the object spread keeps `left`/`middle`/`right`
untouched, exactly as in the source. -/
def calculatePositions : Node → Nat → ℚ → ℚ → Node
  | .mk i v l r m cs _ _ f, depth, xStart, xEnd =>
    let x := (xStart + xEnd) / 2
    let y : ℚ := (depth : ℚ) * 40 + 30
    match cs with
    | some children =>
        .mk i v l r m
          (some (positionChildren children (depth + 1) xStart ((xEnd - xStart) / (children.length : ℚ)) 0))
          (some x) (some y) f
    | none =>
        .mk i v
          (calculatePositionsO l (depth + 1) xStart x)
          (calculatePositionsO r (depth + 1) x xEnd)
          (calculatePositionsO m (depth + 1) ((xStart + xEnd) / 2 - 15) ((xStart + xEnd) / 2 + 15))
          none (some x) (some y) f

/-- The `node.left ? calculatePositions(...) : undefined` guards. -/
def calculatePositionsO : Option Node → Nat → ℚ → ℚ → Option Node
  | none, _, _, _ => none
  | some n, depth, xStart, xEnd => some (calculatePositions n depth xStart xEnd)

/-- The indexed `children.map((child, i) => calculatePositions(child,
depth + 1, xStart + i * step, xStart + (i + 1) * step))`. -/
def positionChildren : List Node → Nat → ℚ → ℚ → Nat → List Node
  | [], _, _, _, _ => []
  | ch :: rest, depth, xStart, step, i =>
      calculatePositions ch depth (xStart + (i : ℚ) * step) (xStart + ((i : ℚ) + 1) * step) ::
        positionChildren rest depth xStart step (i + 1)

end

mutual

/-- `TreeVisualizer.calculatePositions` (src lines 231-240): same midpoint
rule with row height 70 and top margin 60, recursing into `left` and
`right` only; `middle` and `children` are carried over by the spread. -/
def calculatePositionsMain : Node → Nat → ℚ → ℚ → Node
  | .mk i v l r m cs _ _ f, depth, xStart, xEnd =>
    let x := (xStart + xEnd) / 2
    let y : ℚ := (depth : ℚ) * 70 + 60
    .mk i v
      (calculatePositionsMainO l (depth + 1) xStart x)
      (calculatePositionsMainO r (depth + 1) x xEnd)
      m cs (some x) (some y) f

/-- The option guards of `TreeVisualizer.calculatePositions`. -/
def calculatePositionsMainO : Option Node → Nat → ℚ → ℚ → Option Node
  | none, _, _, _ => none
  | some n, depth, xStart, xEnd => some (calculatePositionsMain n depth xStart xEnd)

end

/-- A node record as stored on the JavaScript heap: the same fields as
`Node`, with child links as heap addresses.  Used only by the explicit-heap
model of the mutation-freedom claim. -/
structure HeapNode where
  id : String
  value : Value
  left : Option Nat
  right : Option Nat
  middle : Option Nat
  children : Option (List Nat)
  x : Option ℚ
  y : Option ℚ
  isNew : Option Bool
deriving DecidableEq, Repr

/-- The JavaScript heap: a list of node records; the address of a record is
its index, and allocation appends at the end.  Existing cells are never
assigned to by the modelled functions. -/
abbrev Heap : Type := List HeapNode

/-- `insertBSTImmutable` replayed on the explicit heap.  Every object
literal and object spread of the source allocates a fresh record at the end
of the heap; no existing cell is written.  `fuel` bounds the recursion
depth (a model artifact: the JavaScript recursion terminates because the
reachable heap is a finite tree); `none` means the fuel ran out or a link
dangled, which never happens on heaps encoding trees with enough fuel. -/
def insertBSTHeap : Nat → Heap → Option Nat → Int → Nat → Option (Heap × Nat × Nat)
  | _, h, none, val, c =>
      some (h ++ [⟨Nat.repr c, .num val, none, none, none, none, none, none, some true⟩],
            h.length, c + 1)
  | 0, _, some _, _, _ => none
  | fuel + 1, h, some a, val, c =>
    match h.get? a with
    | none => none
    | some nd =>
      if ltVal val nd.value then
        match insertBSTHeap fuel h nd.left val c with
        | none => none
        | some (h1, a1, c1) =>
            some (h1 ++ [{ nd with isNew := some false, left := some a1 }], h1.length, c1)
      else if gtVal val nd.value then
        match insertBSTHeap fuel h nd.right val c with
        | none => none
        | some (h1, a1, c1) =>
            some (h1 ++ [{ nd with isNew := some false, right := some a1 }], h1.length, c1)
      else
        some (h ++ [{ nd with isNew := some false }], h.length, c)

/-- `clearNewFlags` replayed on the explicit heap, like `insertBSTHeap`:
clear the left subtree, then the right subtree, then allocate the copied
record; no existing cell is written. -/
def clearNewFlagsHeap : Nat → Heap → Nat → Option (Heap × Nat)
  | 0, _, _ => none
  | fuel + 1, h, a =>
    match h.get? a with
    | none => none
    | some nd =>
      let pl : Option (Heap × Option Nat) :=
        match nd.left with
        | none => some (h, none)
        | some la => (clearNewFlagsHeap fuel h la).map (fun p => (p.1, some p.2))
      match pl with
      | none => none
      | some (h1, l1) =>
        let pr : Option (Heap × Option Nat) :=
          match nd.right with
          | none => some (h1, none)
          | some ra => (clearNewFlagsHeap fuel h1 ra).map (fun p => (p.1, some p.2))
        match pr with
        | none => none
        | some (h2, r1) =>
            some (h2 ++ [{ nd with isNew := some false, left := l1, right := r1 }], h2.length)

mutual

/-- The node values of a tree (root first, then left subtree, then right
subtree), read numerically.  Trees produced by the BST builder carry only
numeric values, on which `asNum` is the identity. -/
def valsN : Node → List Int
  | .mk _ v l r _ _ _ _ _ => asNum v :: (valsO l ++ valsO r)

def valsO : Option Node → List Int
  | none => []
  | some n => valsN n

end

mutual

/-- The BST ordering invariant: at every node, every value in the left
subtree is strictly less than the node value and every value in the right
subtree is strictly greater. -/
def isBSTN : Node → Bool
  | .mk _ v l r _ _ _ _ _ =>
      (valsO l).all (fun w => w < asNum v) && (valsO r).all (fun w => asNum v < w) &&
      isBSTO l && isBSTO r

def isBSTO : Option Node → Bool
  | none => true
  | some n => isBSTN n

end

mutual

/-- Erase every `isNew` flag of a tree (all child relations included).
Two trees with equal `stripNew` images have the same shape, ids, values and
coordinates, differing at most in `isNew` flags. -/
def stripNew : Node → Node
  | .mk i v l r m cs x y _ =>
      .mk i v (stripNewO l) (stripNewO r) (stripNewO m) (stripNewC cs) x y none

def stripNewO : Option Node → Option Node
  | none => none
  | some n => some (stripNew n)

def stripNewC : Option (List Node) → Option (List Node)
  | none => none
  | some ns => some (stripNewL ns)

def stripNewL : List Node → List Node
  | [] => []
  | n :: ns => stripNew n :: stripNewL ns

end

mutual

/-- Every node of the tree (all child relations included) has its `isNew`
flag literally set to `false`. -/
def flagsAllFalse : Node → Bool
  | .mk _ _ l r m cs _ _ f =>
      f = some false && flagsAllFalseO l && flagsAllFalseO r && flagsAllFalseO m &&
      flagsAllFalseC cs

def flagsAllFalseO : Option Node → Bool
  | none => true
  | some n => flagsAllFalse n

def flagsAllFalseC : Option (List Node) → Bool
  | none => true
  | some ns => flagsAllFalseL ns

def flagsAllFalseL : List Node → Bool
  | [] => true
  | n :: ns => flagsAllFalse n && flagsAllFalseL ns

end

mutual

/-- All node ids of a tree, every child relation included. -/
def allIds : Node → List String
  | .mk i _ l r m cs _ _ _ =>
      i :: (allIdsO l ++ allIdsO m ++ allIdsO r ++ allIdsC cs)

def allIdsO : Option Node → List String
  | none => []
  | some n => allIds n

def allIdsC : Option (List Node) → List String
  | none => []
  | some ns => allIdsL ns

def allIdsL : List Node → List String
  | [] => []
  | n :: ns => allIds n ++ allIdsL ns

end

mutual

/-- The number of nodes of a tree, every child relation included. -/
def countNodes : Node → Nat
  | .mk _ _ l r m cs _ _ _ =>
      1 + (countNodesO l + countNodesO m + countNodesO r + countNodesC cs)

def countNodesO : Option Node → Nat
  | none => 0
  | some n => countNodes n

def countNodesC : Option (List Node) → Nat
  | none => 0
  | some ns => countNodesL ns

def countNodesL : List Node → Nat
  | [] => 0
  | n :: ns => countNodes n + countNodesL ns

end

mutual

/-- A binary-shaped tree: no node has a middle child or a child list. -/
def binaryShaped : Node → Bool
  | .mk _ _ l r m cs _ _ _ =>
      m.isNone && cs.isNone && binaryShapedO l && binaryShapedO r

def binaryShapedO : Option Node → Bool
  | none => true
  | some n => binaryShaped n

end

mutual

/-- No node of the tree has a middle child (left/right children and general
child lists are allowed). -/
def noMiddle : Node → Bool
  | .mk _ _ l r m cs _ _ _ =>
      m.isNone && noMiddleO l && noMiddleO r && noMiddleC cs

def noMiddleO : Option Node → Bool
  | none => true
  | some n => noMiddle n

def noMiddleC : Option (List Node) → Bool
  | none => true
  | some ns => noMiddleL ns

def noMiddleL : List Node → Bool
  | [] => true
  | n :: ns => noMiddle n && noMiddleL ns

end

mutual

/-- No node of the tree carries an `x` coordinate yet (layout input trees:
presets and builder-produced trees are coordinate-free until the layout
assigns positions). -/
def xsClear : Node → Bool
  | .mk _ _ l r m cs x _ _ =>
      x.isNone && xsClearO l && xsClearO r && xsClearO m && xsClearC cs

def xsClearO : Option Node → Bool
  | none => true
  | some n => xsClear n

def xsClearC : Option (List Node) → Bool
  | none => true
  | some ns => xsClearL ns

def xsClearL : List Node → Bool
  | [] => true
  | n :: ns => xsClear n && xsClearL ns

end

/-- Two spans (closed horizontal intervals) do not overlap: their interiors
are disjoint, i.e. one ends no later than the other starts.  Adjacent spans
sharing a single endpoint do not overlap. -/
def spansDisjoint (p q : ℚ × ℚ) : Bool :=
  min p.2 q.2 ≤ max p.1 q.1

/-- Pairwise non-overlap of a list of spans. -/
def pairwiseDisjointB : List (ℚ × ℚ) → Bool
  | [] => true
  | p :: ps => ps.all (fun q => spansDisjoint p q) && pairwiseDisjointB ps

/-- The spans `MiniTreeVisualizer.calculatePositions` allots to the members
of a child list: member `i` of a node spanning `xStart..xEnd` gets the band
`xStart + i * step .. xStart + (i + 1) * step` with
`step = (xEnd - xStart) / children.length`. -/
def childBands : List Node → ℚ → ℚ → Nat → List ((ℚ × ℚ) × Node)
  | [], _, _, _ => []
  | ch :: rest, xStart, step, i =>
      ((xStart + (i : ℚ) * step, xStart + ((i : ℚ) + 1) * step), ch) ::
        childBands rest xStart step (i + 1)

/-- The spans `MiniTreeVisualizer.calculatePositions` allots to the present
children of a node spanning `xStart..xEnd`: equal bands for a child list;
otherwise the left half-span for `left`, the fixed band `mid - 15 ..
mid + 15` for `middle`, and the right half-span for `right`. -/
def childSpans : Node → ℚ → ℚ → List ((ℚ × ℚ) × Node)
  | .mk _ _ l r m cs _ _ _, xStart, xEnd =>
    let x := (xStart + xEnd) / 2
    match cs with
    | some children => childBands children xStart ((xEnd - xStart) / (children.length : ℚ)) 0
    | none =>
      (match l with | some nl => [((xStart, x), nl)] | none => []) ++
      (match m with | some nm => [((x - 15, x + 15), nm)] | none => []) ++
      (match r with | some nr => [((x, xEnd), nr)] | none => [])

mutual

/-- Sibling non-overlap for the `MiniTreeVisualizer` layout: at every node,
with the span the layout allots to it, the spans allotted to its present
children are pairwise non-overlapping. -/
def layoutSpansOK : Node → ℚ → ℚ → Bool
  | .mk i v l r m cs x y f, xStart, xEnd =>
      pairwiseDisjointB ((childSpans (.mk i v l r m cs x y f) xStart xEnd).map Prod.fst) &&
      (match cs with
       | some children =>
           layoutSpansOKBands children xStart ((xEnd - xStart) / (children.length : ℚ)) 0
       | none =>
           let mid := (xStart + xEnd) / 2
           layoutSpansOKO l xStart mid &&
           layoutSpansOKO m (mid - 15) (mid + 15) &&
           layoutSpansOKO r mid xEnd)
  termination_by structural n _ _ => n

def layoutSpansOKO : Option Node → ℚ → ℚ → Bool
  | none, _, _ => true
  | some n, xStart, xEnd => layoutSpansOK n xStart xEnd
  termination_by structural t _ _ => t

def layoutSpansOKBands : List Node → ℚ → ℚ → Nat → Bool
  | [], _, _, _ => true
  | ch :: rest, xStart, step, i =>
      layoutSpansOK ch (xStart + (i : ℚ) * step) (xStart + ((i : ℚ) + 1) * step) &&
      layoutSpansOKBands rest xStart step (i + 1)
  termination_by structural l _ _ _ => l

end

mutual

/-- Sibling non-overlap for the `TreeVisualizer` layout, which only ever
allots the left half-span to `left` and the right half-span to `right`. -/
def layoutSpansOKMain : Node → ℚ → ℚ → Bool
  | .mk _ _ l r _ _ _ _ _, xStart, xEnd =>
    let x := (xStart + xEnd) / 2
    pairwiseDisjointB
      ((match l with | some _ => [(xStart, x)] | none => []) ++
       (match r with | some _ => [(x, xEnd)] | none => [])) &&
    layoutSpansOKMainO l xStart x && layoutSpansOKMainO r x xEnd

def layoutSpansOKMainO : Option Node → ℚ → ℚ → Bool
  | none, _, _ => true
  | some n, xStart, xEnd => layoutSpansOKMain n xStart xEnd

end

mutual

/-- All `x` coordinates present in a tree, every child relation included. -/
def allXs : Node → List ℚ
  | .mk _ _ l r m cs x _ _ =>
      (match x with | some q => [q] | none => []) ++
      (allXsO l ++ allXsO m ++ allXsO r ++ allXsC cs)

def allXsO : Option Node → List ℚ
  | none => []
  | some n => allXs n

def allXsC : Option (List Node) → List ℚ
  | none => []
  | some ns => allXsL ns

def allXsL : List Node → List ℚ
  | [] => []
  | n :: ns => allXs n ++ allXsL ns

end

/-! ## Helper lemmas -/

theorem toDigitsCore_eq_digits (f : ℕ) : ∀ (n : ℕ) (acc : List Char), 0 < n → n < f →
    Nat.toDigitsCore 10 f n acc = ((Nat.digits 10 n).map Nat.digitChar).reverse ++ acc := by
  induction f with
  | zero => intro n acc _ h; omega
  | succ f ih =>
    intro n acc hn hf
    rw [Nat.toDigitsCore]
    have hd : Nat.digits 10 n = n % 10 :: Nat.digits 10 (n / 10) :=
      Nat.digits_def' (by norm_num) hn
    by_cases h10 : n / 10 = 0
    · simp [h10, hd, Nat.digits_zero]
    · have hlt : n / 10 < f := by
        have := Nat.div_lt_self hn (by norm_num : 1 < 10)
        omega
      simp only [h10, if_false]
      rw [ih (n / 10) _ (Nat.pos_of_ne_zero h10) hlt]
      simp [hd]

theorem repr_eq_digits (n : ℕ) (hn : 0 < n) :
    Nat.repr n = (((Nat.digits 10 n).map Nat.digitChar).reverse).asString := by
  rw [Nat.repr, Nat.toDigits]
  rw [toDigitsCore_eq_digits (n + 1) n [] hn (by omega)]
  simp

theorem digitChar_inj_lt (a b : ℕ) (ha : a < 10) (hb : b < 10)
    (h : Nat.digitChar a = Nat.digitChar b) : a = b := by
  interval_cases a <;> interval_cases b <;> simp_all [Nat.digitChar]

theorem map_digitChar_inj : ∀ (l1 l2 : List ℕ), (∀ d ∈ l1, d < 10) → (∀ d ∈ l2, d < 10) →
    l1.map Nat.digitChar = l2.map Nat.digitChar → l1 = l2 := by
  intro l1
  induction l1 with
  | nil => intro l2 _ _ h; cases l2 <;> simp_all
  | cons a l ih =>
    intro l2 h1 h2 h
    cases l2 with
    | nil => simp_all
    | cons b m =>
      simp only [List.map_cons, List.cons.injEq] at h
      have hab := digitChar_inj_lt a b (h1 a (by simp)) (h2 b (by simp)) h.1
      subst hab
      rw [ih m (fun d hd => h1 d (by simp [hd])) (fun d hd => h2 d (by simp [hd])) h.2]

theorem repr_eq_of_pos (m n : ℕ) (hm : 0 < m) (hn : 0 < n)
    (h : Nat.repr m = Nat.repr n) : m = n := by
  rw [repr_eq_digits m hm, repr_eq_digits n hn] at h
  have hdata := congrArg String.data h
  simp only [List.asString] at hdata
  have hrev := congrArg List.reverse hdata
  simp only [List.reverse_reverse] at hrev
  have heq := map_digitChar_inj _ _ (fun d hd => Nat.digits_lt_base (by norm_num) hd)
    (fun d hd => Nat.digits_lt_base (by norm_num) hd) hrev
  calc m = Nat.ofDigits 10 (Nat.digits 10 m) := (Nat.ofDigits_digits 10 m).symm
    _ = Nat.ofDigits 10 (Nat.digits 10 n) := by rw [heq]
    _ = n := Nat.ofDigits_digits 10 n

theorem repr_pos_ne_zero (n : ℕ) (hn : 0 < n) : Nat.repr n ≠ Nat.repr 0 := by
  intro h
  have h0 : Nat.repr 0 = "0" := rfl
  rw [repr_eq_digits n hn, h0] at h
  have hdata := congrArg String.data h
  simp only [List.asString] at hdata
  have hrev := congrArg List.reverse hdata
  simp only [List.reverse_reverse] at hrev
  have h0d : ("0".data).reverse = [Nat.digitChar 0] := rfl
  rw [h0d] at hrev
  have heq := map_digitChar_inj _ [0] (fun d hd => Nat.digits_lt_base (by norm_num) hd)
    (by norm_num) (by simpa using hrev)
  have hof := Nat.ofDigits_digits 10 n
  rw [heq] at hof
  simp [Nat.ofDigits] at hof
  omega

/-- Decimal string representations of distinct naturals differ; used for id
freshness of the BST builder. -/
theorem nat_repr_injective : Function.Injective Nat.repr := by
  intro m n h
  rcases Nat.eq_zero_or_pos m with hm | hm <;> rcases Nat.eq_zero_or_pos n with hn | hn
  · omega
  · subst hm; exact absurd h.symm (repr_pos_ne_zero n hn)
  · subst hn; exact absurd h (repr_pos_ne_zero m hm)
  · exact repr_eq_of_pos m n hm hn h

/-- Structural induction principle for the nested `Node` type, by strong
induction on `sizeOf`: to prove a property of every node it suffices to
prove it for a node assuming it for the left, right and middle children and
every member of the child list. -/
theorem nodeFullInd (P : Node → Prop)
    (h : ∀ i v l r m cs x y f,
      (∀ n, l = some n → P n) → (∀ n, r = some n → P n) → (∀ n, m = some n → P n) →
      (∀ ns, cs = some ns → ∀ n ∈ ns, P n) → P (.mk i v l r m cs x y f)) :
    ∀ n, P n := by
  intro n
  generalize hk : sizeOf n = k
  induction k using Nat.strong_induction_on generalizing n with
  | _ k ih =>
    subst hk
    match n with
    | .mk i v l r m cs x y f =>
      apply h
      · intro n' hl
        apply ih (sizeOf n') ?_ n' rfl
        subst hl; simp; omega
      · intro n' hr
        apply ih (sizeOf n') ?_ n' rfl
        subst hr; simp; omega
      · intro n' hm
        apply ih (sizeOf n') ?_ n' rfl
        subst hm; simp; omega
      · intro ns hcs n' hmem
        apply ih (sizeOf n') ?_ n' rfl
        subst hcs
        have h1 := List.sizeOf_lt_of_mem hmem
        simp
        omega

/-! ## Claim C2: traversal orders of the binary preset -/

/-- Claim C2: for the preset binary tree 10(5(2,7), 15(12,20)),
`getTraversalOrder` visits node values in order 10,5,2,7,15,12,20
(preorder), 2,5,7,10,12,15,20 (inorder) and 2,7,5,12,20,15,10
(postorder). -/
theorem claim_C2_traversal_example :
    (getTraversalOrder (some TREE_PRESETS_binary) "preorder").map
        (fun i => findValOpt (some TREE_PRESETS_binary) i) =
      [some (.num 10), some (.num 5), some (.num 2), some (.num 7),
       some (.num 15), some (.num 12), some (.num 20)] ∧
    (getTraversalOrder (some TREE_PRESETS_binary) "inorder").map
        (fun i => findValOpt (some TREE_PRESETS_binary) i) =
      [some (.num 2), some (.num 5), some (.num 7), some (.num 10),
       some (.num 12), some (.num 15), some (.num 20)] ∧
    (getTraversalOrder (some TREE_PRESETS_binary) "postorder").map
        (fun i => findValOpt (some TREE_PRESETS_binary) i) =
      [some (.num 2), some (.num 7), some (.num 5), some (.num 12),
       some (.num 20), some (.num 15), some (.num 10)] := by
  refine ⟨?_, ?_, ?_⟩ <;> decide

/-! ## Claims C8 and C9: rejected build requests -/

/-- Claim C8: a start-construction request whose input parses to no
integers is rejected with no state mutation: the tree, queue, construction
flag, traversal step and visited set are all unchanged. -/
theorem claim_C8_rejected_build (st : AppState) (h : buildOrder st.userInput = []) :
    handleStartConstruction st = st := by
  simp [handleStartConstruction, h]

/-- Witness for C8 at the concrete input "abc, ,," of the claim. -/
theorem claim_C8_witness :
    buildOrder "abc, ,," = [] ∧
      handleStartConstruction ⟨"abc, ,,", none, false, [], -1, [], 1⟩ =
        ⟨"abc, ,,", none, false, [], -1, [], 1⟩ :=
  ⟨by decide, claim_C8_rejected_build ⟨"abc, ,,", none, false, [], -1, [], 1⟩ (by decide)⟩

/-- Claim C9 as stated is false at the concrete inputs "abc, ,," and "":
the parse pipeline returns the empty list for both, so a non-empty input
with no parseable integers is not signalled distinctly from an empty input
(and `handleStartConstruction` returns with no signal in either case). -/
theorem claim_C9_counterexample :
    buildOrder "abc, ,," = buildOrder "" ∧ buildOrder "" = [] := by
  exact ⟨by decide, by decide⟩

/-- Claim C9 amended: an input whose parse result coincides with that of
the empty input (the empty list) makes the build request a silent no-op:
`handleStartConstruction` leaves the state unchanged and produces no
distinct validation-failure signal. -/
theorem claim_C9_amended_silent_noop (st : AppState)
    (h : buildOrder st.userInput = buildOrder "") :
    handleStartConstruction st = st := by
  have h0 : buildOrder "" = [] := by decide
  rw [h0] at h
  simp [handleStartConstruction, h]

/-- Witness for the amended C9 at a state holding a tree and the all-invalid
input "xyz". -/
theorem claim_C9_amended_witness :
    buildOrder "xyz" = buildOrder "" ∧
      handleStartConstruction ⟨"xyz", some TREE_PRESETS_binary, false, [], -1, [], 5⟩ =
        ⟨"xyz", some TREE_PRESETS_binary, false, [], -1, [], 5⟩ :=
  ⟨by decide,
   claim_C9_amended_silent_noop ⟨"xyz", some TREE_PRESETS_binary, false, [], -1, [], 5⟩ (by decide)⟩

/-! ## Claim C6: clearFlags -/

/-- Claim C6 as stated is false at a concrete tree with a middle child:
`clearNewFlags` recurses into `left` and `right` only, so the middle
child's `isNew = true` flag survives and the result is not a tree whose
every node has `isNew` false. -/
theorem claim_C6_counterexample :
    (clearNewFlags (.mk "a" (.num 1) none none
        (some (.mk "b" (.num 2) none none none none none none (some true)))
        none none none none)).middle.map Node.isNew = some (some true) ∧
    flagsAllFalse (clearNewFlags (.mk "a" (.num 1) none none
        (some (.mk "b" (.num 2) none none none none none none (some true)))
        none none none none)) = false := by
  exact ⟨by decide, by decide⟩

/-- Claim C6 amended: for every binary-shaped tree (no middle children and
no child lists — the only trees the program ever passes to
`clearNewFlags`), the result is identical to the input except that every
node's `isNew` flag is `false`. -/
theorem claim_C6_amended (t : Node) (h : binaryShaped t = true) :
    stripNew (clearNewFlags t) = stripNew t ∧ flagsAllFalse (clearNewFlags t) = true := by
  induction t using nodeFullInd with
  | _ i v l r m cs x y f ihl ihr ihm ihcs =>
    simp only [binaryShaped, Bool.and_eq_true, Option.isNone_iff_eq_none] at h
    obtain ⟨⟨⟨hm, hcs⟩, hl⟩, hr⟩ := h
    subst hm; subst hcs
    cases l with
    | none =>
      cases r with
      | none => exact ⟨rfl, rfl⟩
      | some nr =>
        simp only [binaryShapedO] at hr
        obtain ⟨hr1, hr2⟩ := ihr nr rfl hr
        refine ⟨?_, ?_⟩
        · simp [clearNewFlags, clearNewFlagsO, stripNew, stripNewO, hr1]
        · simp [clearNewFlags, clearNewFlagsO, flagsAllFalse, flagsAllFalseO,
                flagsAllFalseC, hr2]
    | some nl =>
      simp only [binaryShapedO] at hl
      obtain ⟨hl1, hl2⟩ := ihl nl rfl hl
      cases r with
      | none =>
        refine ⟨?_, ?_⟩
        · simp [clearNewFlags, clearNewFlagsO, stripNew, stripNewO, hl1]
        · simp [clearNewFlags, clearNewFlagsO, flagsAllFalse, flagsAllFalseO,
                flagsAllFalseC, hl2]
      | some nr =>
        simp only [binaryShapedO] at hr
        obtain ⟨hr1, hr2⟩ := ihr nr rfl hr
        refine ⟨?_, ?_⟩
        · simp [clearNewFlags, clearNewFlagsO, stripNew, stripNewO, hl1, hr1]
        · simp [clearNewFlags, clearNewFlagsO, flagsAllFalse, flagsAllFalseO,
                flagsAllFalseC, hl2, hr2]

/-- Witness for the amended C6 at the binary preset tree. -/
theorem claim_C6_amended_witness :
    binaryShaped TREE_PRESETS_binary = true ∧
      (stripNew (clearNewFlags TREE_PRESETS_binary) = stripNew TREE_PRESETS_binary ∧
       flagsAllFalse (clearNewFlags TREE_PRESETS_binary) = true) :=
  ⟨by decide, claim_C6_amended TREE_PRESETS_binary (by decide)⟩

/-! ## BST builder lemmas (claims C1, C3, C7) -/

/-- Induction principle over optional nodes, derived from
`nodeFullInd`. -/
theorem OptnodeFullInd (P : Option Node → Prop) (h0 : P none)
    (h : ∀ i v l r m cs x y f, P l → P r → P m →
      (∀ ns, cs = some ns → ∀ n ∈ ns, P (some n)) →
      P (some (.mk i v l r m cs x y f))) :
    ∀ t, P t := by
  have key : ∀ n : Node, P (some n) := by
    intro n
    induction n using nodeFullInd with
    | _ i v l r m cs x y f ihl ihr ihm ihcs =>
      apply h
      · cases l with
        | none => exact h0
        | some nl => exact ihl nl rfl
      · cases r with
        | none => exact h0
        | some nr => exact ihr nr rfl
      · cases m with
        | none => exact h0
        | some nm => exact ihm nm rfl
      · exact ihcs
  intro t
  cases t with
  | none => exact h0
  | some n => exact key n

/-- A `ltVal` comparison only succeeds against a numeric value. -/
theorem ltVal_num (val : Int) (v : Value) (h : ltVal val v = true) :
    ∃ n, v = .num n ∧ val < n := by
  cases v with
  | num n => exact ⟨n, rfl, by simpa [ltVal] using h⟩
  | str s => simp [ltVal] at h

/-- A `gtVal` comparison only succeeds against a numeric value. -/
theorem gtVal_num (val : Int) (v : Value) (h : gtVal val v = true) :
    ∃ n, v = .num n ∧ n < val := by
  cases v with
  | num n => exact ⟨n, rfl, by simpa [gtVal] using h⟩
  | str s => simp [gtVal] at h

/-- Every value of the tree returned by an insertion is either an old value
or the inserted one. -/
theorem vals_insert : ∀ (t : Option Node) (v : Int) (c : Nat),
    ∀ w ∈ valsN (insertBSTImmutable t v c).1, w ∈ valsO t ∨ w = v := by
  intro t
  induction t using OptnodeFullInd with
  | h0 =>
    intro v c w hw
    simp [insertBSTImmutable, valsN, valsO, asNum] at hw
    exact Or.inr hw
  | h i v0 l r m cs x y f ihl ihr ihm ihcs =>
    intro v c w hw
    by_cases hlt : ltVal v v0 = true
    · simp only [insertBSTImmutable, insertNode, hlt, if_true] at hw
      simp only [valsN, valsO, List.mem_cons, List.mem_append] at hw ⊢
      rcases hw with hw | hw | hw
      · exact Or.inl (Or.inl hw)
      · rcases ihl v c w hw with h1 | h1
        · exact Or.inl (Or.inr (Or.inl h1))
        · exact Or.inr h1
      · exact Or.inl (Or.inr (Or.inr hw))
    · by_cases hgt : gtVal v v0 = true
      · simp only [insertBSTImmutable, insertNode, hlt, hgt, if_true, if_false,
                   Bool.false_eq_true] at hw
        simp only [valsN, valsO, List.mem_cons, List.mem_append] at hw ⊢
        rcases hw with hw | hw | hw
        · exact Or.inl (Or.inl hw)
        · exact Or.inl (Or.inr (Or.inl hw))
        · rcases ihr v c w hw with h1 | h1
          · exact Or.inl (Or.inr (Or.inr h1))
          · exact Or.inr h1
      · simp only [insertBSTImmutable, insertNode, hlt, hgt, if_false,
                   Bool.false_eq_true] at hw
        simp only [valsN, valsO] at hw ⊢
        exact Or.inl hw

/-- Insertion preserves the BST ordering invariant. -/
theorem isBST_insert : ∀ (t : Option Node) (v : Int) (c : Nat),
    isBSTO t = true → isBSTN (insertBSTImmutable t v c).1 = true := by
  intro t
  induction t using OptnodeFullInd with
  | h0 =>
    intro v c _
    simp [insertBSTImmutable, isBSTN, isBSTO, valsO]
  | h i v0 l r m cs x y f ihl ihr ihm ihcs =>
    intro v c hbst
    simp only [isBSTO, isBSTN, Bool.and_eq_true, List.all_eq_true] at hbst
    obtain ⟨⟨⟨hbl, hbr⟩, hl⟩, hr⟩ := hbst
    by_cases hlt : ltVal v v0 = true
    · obtain ⟨n0, hv0, hvn⟩ := ltVal_num v v0 hlt
      simp only [insertBSTImmutable, insertNode, hlt, if_true]
      simp only [isBSTN, isBSTO, valsO, Bool.and_eq_true, List.all_eq_true]
      refine ⟨⟨⟨?_, ?_⟩, ?_⟩, ?_⟩
      · intro w hw
        rcases vals_insert l v c w hw with h1 | h1
        · exact hbl w h1
        · subst h1; subst hv0; simpa [asNum] using hvn
      · exact hbr
      · exact ihl v c hl
      · exact hr
    · by_cases hgt : gtVal v v0 = true
      · obtain ⟨n0, hv0, hvn⟩ := gtVal_num v v0 hgt
        simp only [insertBSTImmutable, insertNode, hlt, hgt, if_true, if_false,
                   Bool.false_eq_true]
        simp only [isBSTN, isBSTO, valsO, Bool.and_eq_true, List.all_eq_true]
        refine ⟨⟨⟨?_, ?_⟩, ?_⟩, ?_⟩
        · exact hbl
        · intro w hw
          rcases vals_insert r v c w hw with h1 | h1
          · exact hbr w h1
          · subst h1; subst hv0; simpa [asNum] using hvn
        · exact hl
        · exact ihr v c hr
      · simp only [insertBSTImmutable, insertNode, hlt, hgt, if_false,
                   Bool.false_eq_true]
        simp only [isBSTN, isBSTO, valsO, Bool.and_eq_true, List.all_eq_true]
        exact ⟨⟨⟨hbl, hbr⟩, hl⟩, hr⟩

/-- `clearNewFlags` does not change the values of a tree. -/
theorem vals_clear : ∀ t : Option Node, valsO (clearNewFlagsO t) = valsO t := by
  intro t
  induction t using OptnodeFullInd with
  | h0 => rfl
  | h i v0 l r m cs x y f ihl ihr ihm ihcs =>
    simp only [clearNewFlagsO, clearNewFlags, valsO, valsN]
    simp only [clearNewFlagsO, valsO] at ihl ihr
    rw [ihl, ihr]

/-- `clearNewFlags` preserves the BST ordering invariant. -/
theorem isBST_clear : ∀ t : Option Node, isBSTO (clearNewFlagsO t) = isBSTO t := by
  intro t
  induction t using OptnodeFullInd with
  | h0 => rfl
  | h i v0 l r m cs x y f ihl ihr ihm ihcs =>
    simp only [clearNewFlagsO, clearNewFlags, isBSTO, isBSTN]
    simp only [clearNewFlagsO, isBSTO] at ihl ihr
    rw [ihl, ihr, vals_clear l, vals_clear r]

/-- Claim C1: for every finite sequence of integers fed to the builder (one
`insertBSTImmutable` per queued value, starting from an absent root), the
final tree satisfies the BST ordering invariant: at every node, all left
subtree values are strictly smaller and all right subtree values strictly
greater than the node value. -/
theorem claim_C1_bst_invariant (vals : List Int) :
    isBSTO (buildSession vals).1 = true := by
  suffices key : ∀ (p : Option Node × Nat), isBSTO p.1 = true →
      isBSTO (vals.foldl
        (fun p v => let q := constructionTick p.1 p.2 v; (some q.1, q.2)) p).1 = true by
    exact key (none, 1) rfl
  induction vals with
  | nil => intro p hp; exact hp
  | cons v rest ih =>
    intro p hp
    simp only [List.foldl_cons]
    apply ih
    simp only [constructionTick]
    have h1 : isBSTO (clearNewFlagsO p.1) = true := by rw [isBST_clear]; exact hp
    simpa [isBSTO] using isBST_insert (clearNewFlagsO p.1) v p.2 h1

/-- Inserting a value already present in a BST is a structural no-op: the
result differs from the input at most in `isNew` flags, and the id counter
is not advanced. -/
theorem insert_mem_noop : ∀ (t : Option Node) (v : Int) (c : Nat),
    isBSTO t = true → v ∈ valsO t →
    stripNewO (some (insertBSTImmutable t v c).1) = stripNewO t ∧
      (insertBSTImmutable t v c).2 = c := by
  intro t
  induction t using OptnodeFullInd with
  | h0 => intro v c _ hmem; simp [valsO] at hmem
  | h i v0 l r m cs x y f ihl ihr ihm ihcs =>
    intro v c hbst hmem
    simp only [isBSTO, isBSTN, Bool.and_eq_true, List.all_eq_true] at hbst
    obtain ⟨⟨⟨hbl, hbr⟩, hl⟩, hr⟩ := hbst
    simp only [valsO, valsN, List.mem_cons, List.mem_append] at hmem
    by_cases hlt : ltVal v v0 = true
    · obtain ⟨n0, hv0, hvn⟩ := ltVal_num v v0 hlt
      have hmeml : v ∈ valsO l := by
        rcases hmem with hmem | hmem | hmem
        · exfalso; subst hv0; simp [asNum] at hmem; omega
        · exact hmem
        · exfalso; have := hbr v hmem; subst hv0; simp [asNum] at this; omega
      obtain ⟨ih1, ih2⟩ := ihl v c hl hmeml
      simp only [insertBSTImmutable, insertNode, hlt, if_true]
      constructor
      · simp only [stripNewO, stripNew]
        simp only [stripNewO] at ih1
        rw [ih1]
      · exact ih2
    · by_cases hgt : gtVal v v0 = true
      · obtain ⟨n0, hv0, hvn⟩ := gtVal_num v v0 hgt
        have hmemr : v ∈ valsO r := by
          rcases hmem with hmem | hmem | hmem
          · exfalso; subst hv0; simp [asNum] at hmem; omega
          · exfalso; have := hbl v hmem; subst hv0; simp [asNum] at this; omega
          · exact hmem
        obtain ⟨ih1, ih2⟩ := ihr v c hr hmemr
        simp only [insertBSTImmutable, insertNode, hlt, hgt, if_true, if_false,
                   Bool.false_eq_true]
        constructor
        · simp only [stripNewO, stripNew]
          simp only [stripNewO] at ih1
          rw [ih1]
        · exact ih2
      · simp only [insertBSTImmutable, insertNode, hlt, hgt, if_false,
                   Bool.false_eq_true]
        simp [stripNewO, stripNew]

/-- Claim C3: inserting a value already present in a BST built by prior
inserts is a structural no-op: the returned tree has the same shape, node
values and node ids as the input (it differs at most in `isNew` flags,
which the next tick clears anyway), and the id allocator is not
advanced. -/
theorem claim_C3_duplicate_noop (root : Node) (v : Int) (c : Nat)
    (hbst : isBSTN root = true) (hmem : v ∈ valsN root) :
    stripNew (insertBSTImmutable (some root) v c).1 = stripNew root ∧
      (insertBSTImmutable (some root) v c).2 = c := by
  have h := insert_mem_noop (some root) v c (by simpa [isBSTO] using hbst)
    (by simpa [valsO] using hmem)
  obtain ⟨h1, h2⟩ := h
  simp only [stripNewO, Option.some.injEq] at h1
  exact ⟨h1, h2⟩

/-- Witness for C3: re-inserting the value 7, already present in the binary
preset (a valid BST), with counter 8. -/
theorem claim_C3_witness :
    (isBSTN TREE_PRESETS_binary = true ∧ (7 : Int) ∈ valsN TREE_PRESETS_binary) ∧
      (stripNew (insertBSTImmutable (some TREE_PRESETS_binary) 7 8).1 =
          stripNew TREE_PRESETS_binary ∧
        (insertBSTImmutable (some TREE_PRESETS_binary) 7 8).2 = 8) :=
  ⟨⟨by decide, by decide⟩,
   claim_C3_duplicate_noop TREE_PRESETS_binary 7 8 (by decide) (by decide)⟩

/-- `clearNewFlags` does not change the ids of a tree. -/
theorem allIds_clear : ∀ t : Option Node, allIdsO (clearNewFlagsO t) = allIdsO t := by
  intro t
  induction t using OptnodeFullInd with
  | h0 => rfl
  | h i v0 l r m cs x y f ihl ihr ihm ihcs =>
    simp only [clearNewFlagsO, clearNewFlags, allIdsO, allIds]
    simp only [clearNewFlagsO, allIdsO] at ihl ihr
    rw [ihl, ihr]

/-- One insertion either leaves the id list unchanged with the counter not
advanced (duplicate), or adds exactly the id `Nat.repr c` with the counter
advanced by one. -/
theorem allIds_insert : ∀ (t : Option Node) (v : Int) (c : Nat),
    ((insertBSTImmutable t v c).2 = c ∧
      allIds (insertBSTImmutable t v c).1 = allIdsO t) ∨
    ((insertBSTImmutable t v c).2 = c + 1 ∧
      (allIds (insertBSTImmutable t v c).1).Perm (Nat.repr c :: allIdsO t)) := by
  intro t
  induction t using OptnodeFullInd with
  | h0 =>
    intro v c
    right
    refine ⟨rfl, ?_⟩
    simp [insertBSTImmutable, allIds, allIdsO, allIdsC]
  | h i v0 l r m cs x y f ihl ihr ihm ihcs =>
    intro v c
    by_cases hlt : ltVal v v0 = true
    · simp only [insertBSTImmutable, insertNode, hlt, if_true]
      rcases ihl v c with ⟨ihc, ihi⟩ | ⟨ihc, ihi⟩
      · left
        refine ⟨ihc, ?_⟩
        simp only [allIds, allIdsO]
        rw [ihi]
      · right
        refine ⟨ihc, ?_⟩
        simp only [allIds, allIdsO]
        refine List.Perm.trans
          (List.Perm.cons i (((ihi.append_right _).append_right _).append_right _)) ?_
        simp only [List.cons_append]
        exact List.Perm.swap (Nat.repr c) i _
    · by_cases hgt : gtVal v v0 = true
      · simp only [insertBSTImmutable, insertNode, hlt, hgt, if_true, if_false,
                   Bool.false_eq_true]
        rcases ihr v c with ⟨ihc, ihi⟩ | ⟨ihc, ihi⟩
        · left
          refine ⟨ihc, ?_⟩
          simp only [allIds, allIdsO]
          rw [ihi]
        · right
          refine ⟨ihc, ?_⟩
          simp only [allIds, allIdsO]
          refine List.Perm.trans
            (List.Perm.cons i ((ihi.append_left (allIdsO l ++ allIdsO m)).append_right _)) ?_
          have h1 : allIdsO l ++ allIdsO m ++ (Nat.repr c :: allIdsO r) ++ allIdsC cs =
              (allIdsO l ++ allIdsO m) ++ Nat.repr c :: (allIdsO r ++ allIdsC cs) := by
            simp [List.append_assoc]
          rw [h1]
          refine List.Perm.trans (List.Perm.cons i List.perm_middle) ?_
          have h2 : (allIdsO l ++ allIdsO m) ++ (allIdsO r ++ allIdsC cs) =
              allIdsO l ++ allIdsO m ++ allIdsO r ++ allIdsC cs := by
            simp [List.append_assoc]
          rw [h2]
          exact List.Perm.swap (Nat.repr c) i _
      · simp only [insertBSTImmutable, insertNode, hlt, hgt, if_false,
                   Bool.false_eq_true]
        left
        refine ⟨?_, ?_⟩ <;> simp [allIds, allIdsO]

/-- One construction tick preserves the id invariant: ids stay pairwise
distinct and every id is the decimal string of a natural below the
counter. -/
theorem idInv_tick (t0 : Option Node) (c0 : Nat) (v : Int)
    (h1 : (allIdsO t0).Nodup) (h2 : ∀ s ∈ allIdsO t0, ∃ n, n < c0 ∧ s = Nat.repr n) :
    (allIds (constructionTick t0 c0 v).1).Nodup ∧
      ∀ s ∈ allIds (constructionTick t0 c0 v).1,
        ∃ n, n < (constructionTick t0 c0 v).2 ∧ s = Nat.repr n := by
  simp only [constructionTick]
  have hids : allIdsO (clearNewFlagsO t0) = allIdsO t0 := allIds_clear t0
  rcases allIds_insert (clearNewFlagsO t0) v c0 with ⟨hc, hi⟩ | ⟨hc, hi⟩
  · rw [hi, hids, hc]
    exact ⟨h1, h2⟩
  · rw [hids] at hi
    have hfresh : Nat.repr c0 ∉ allIdsO t0 := by
      intro hmem
      obtain ⟨n, hn, hs⟩ := h2 _ hmem
      have := nat_repr_injective hs
      omega
    constructor
    · apply hi.nodup_iff.mpr
      rw [List.nodup_cons]
      exact ⟨hfresh, h1⟩
    · intro s hs
      rw [hc]
      rcases List.mem_cons.mp (hi.mem_iff.mp hs) with hs1 | hs1
      · exact ⟨c0, by omega, hs1⟩
      · obtain ⟨n, hn, hr⟩ := h2 s hs1
        exact ⟨n, by omega, hr⟩

/-- Claim C7: within one build session (the start-construction request
resets the id allocator to 1 and then one insertion runs per queued value),
no two distinct nodes of the built tree share an identifier. -/
theorem claim_C7_id_uniqueness (vals : List Int) :
    (allIdsO (buildSession vals).1).Nodup := by
  suffices key : ∀ (p : Option Node × Nat),
      (allIdsO p.1).Nodup → (∀ s ∈ allIdsO p.1, ∃ n, n < p.2 ∧ s = Nat.repr n) →
      (allIdsO (vals.foldl
          (fun p v => let q := constructionTick p.1 p.2 v; (some q.1, q.2)) p).1).Nodup ∧
        ∀ s ∈ allIdsO (vals.foldl
            (fun p v => let q := constructionTick p.1 p.2 v; (some q.1, q.2)) p).1,
          ∃ n, n < (vals.foldl
            (fun p v => let q := constructionTick p.1 p.2 v; (some q.1, q.2)) p).2 ∧
            s = Nat.repr n by
    exact (key (none, 1) (by simp [allIdsO]) (by simp [allIdsO])).1
  induction vals with
  | nil => intro p hp1 hp2; exact ⟨hp1, hp2⟩
  | cons v rest ih =>
    intro p hp1 hp2
    simp only [List.foldl_cons]
    obtain ⟨k1, k2⟩ := idInv_tick p.1 p.2 v hp1 hp2
    exact ih (some (constructionTick p.1 p.2 v).1, (constructionTick p.1 p.2 v).2)
      (by simpa [allIdsO] using k1) (by simpa [allIdsO] using k2)

/-! ## Claim C10: traversals visit each node exactly once -/

/-- For binary-shaped trees the id list has one entry per node. -/
theorem allIds_length_binary : ∀ t : Option Node, binaryShapedO t = true →
    (allIdsO t).length = countNodesO t := by
  intro t
  induction t using OptnodeFullInd with
  | h0 => intro _; rfl
  | h i v0 l r m cs x y f ihl ihr ihm ihcs =>
    intro hb
    simp only [binaryShapedO, binaryShaped, Bool.and_eq_true, Option.isNone_iff_eq_none] at hb
    obtain ⟨⟨⟨hm, hcs⟩, hl⟩, hr⟩ := hb
    subst hm; subst hcs
    simp only [allIdsO, allIds, allIdsC, countNodesO, countNodes, countNodesC,
               List.length_cons, List.length_append, List.length_nil]
    simp only [binaryShapedO] at ihl ihr
    rw [ihl hl, ihr hr]
    omega

/-- For binary-shaped trees, each of the three traversals is a permutation
of the id list. -/
theorem walk_perm_allIds : ∀ t : Option Node, binaryShapedO t = true →
    (walkOpt "preorder" t).Perm (allIdsO t) ∧
    (walkOpt "inorder" t).Perm (allIdsO t) ∧
    (walkOpt "postorder" t).Perm (allIdsO t) := by
  intro t
  induction t using OptnodeFullInd with
  | h0 => intro _; exact ⟨List.Perm.refl _, List.Perm.refl _, List.Perm.refl _⟩
  | h i v0 l r m cs x y f ihl ihr ihm ihcs =>
    intro hb
    simp only [binaryShapedO, binaryShaped, Bool.and_eq_true, Option.isNone_iff_eq_none] at hb
    obtain ⟨⟨⟨hm, hcs⟩, hl⟩, hr⟩ := hb
    subst hm; subst hcs
    simp only [binaryShapedO] at ihl ihr
    obtain ⟨pl1, pl2, pl3⟩ := ihl hl
    obtain ⟨pr1, pr2, pr3⟩ := ihr hr
    have hids : allIdsO (some (Node.mk i v0 l r none none x y f)) =
        i :: (allIdsO l ++ allIdsO r) := by
      simp [allIdsO, allIds, allIdsC]
    refine ⟨?_, ?_, ?_⟩
    · rw [hids]
      show ((if ("preorder" : String) = "preorder" then [i] else []) ++ walkOpt "preorder" l ++
        (if ("preorder" : String) = "inorder" then [i] else []) ++ walkOpt "preorder" r ++
        (if ("preorder" : String) = "postorder" then [i] else [])).Perm
          (i :: (allIdsO l ++ allIdsO r))
      rw [if_pos rfl, if_neg (by decide : ¬ ("preorder" : String) = "inorder"),
          if_neg (by decide : ¬ ("preorder" : String) = "postorder")]
      simp only [List.append_nil, List.nil_append, List.cons_append, List.singleton_append]
      exact List.Perm.cons i (pl1.append pr1)
    · rw [hids]
      show ((if ("inorder" : String) = "preorder" then [i] else []) ++ walkOpt "inorder" l ++
        (if ("inorder" : String) = "inorder" then [i] else []) ++ walkOpt "inorder" r ++
        (if ("inorder" : String) = "postorder" then [i] else [])).Perm
          (i :: (allIdsO l ++ allIdsO r))
      rw [if_neg (by decide : ¬ ("inorder" : String) = "preorder"), if_pos rfl,
          if_neg (by decide : ¬ ("inorder" : String) = "postorder")]
      simp only [List.append_nil, List.nil_append, List.singleton_append]
      have h1 : walkOpt "inorder" l ++ [i] ++ walkOpt "inorder" r =
          walkOpt "inorder" l ++ i :: walkOpt "inorder" r := by simp
      rw [h1]
      refine List.Perm.trans List.perm_middle ?_
      exact List.Perm.cons i (pl2.append pr2)
    · rw [hids]
      show ((if ("postorder" : String) = "preorder" then [i] else []) ++ walkOpt "postorder" l ++
        (if ("postorder" : String) = "inorder" then [i] else []) ++ walkOpt "postorder" r ++
        (if ("postorder" : String) = "postorder" then [i] else [])).Perm
          (i :: (allIdsO l ++ allIdsO r))
      rw [if_neg (by decide : ¬ ("postorder" : String) = "preorder"),
          if_neg (by decide : ¬ ("postorder" : String) = "inorder"), if_pos rfl]
      simp only [List.append_nil, List.nil_append]
      have h1 : walkOpt "postorder" l ++ walkOpt "postorder" r ++ [i] =
          (walkOpt "postorder" l ++ walkOpt "postorder" r) ++ i :: ([] : List String) := by
        simp
      rw [h1]
      refine List.Perm.trans List.perm_middle ?_
      rw [List.append_nil]
      exact List.Perm.cons i (pl3.append pr3)

/-- Claim C10: for every binary tree and each traversal kind, the sequence
returned by `getTraversalOrder` is a permutation of the tree's node ids (so
each node id occurs exactly as often as in the tree, and the length equals
the number of nodes). -/
theorem claim_C10_traversal_permutation (t : Node) (h : binaryShaped t = true) :
    ((getTraversalOrder (some t) "preorder").Perm (allIds t) ∧
      (getTraversalOrder (some t) "preorder").length = countNodes t) ∧
    ((getTraversalOrder (some t) "inorder").Perm (allIds t) ∧
      (getTraversalOrder (some t) "inorder").length = countNodes t) ∧
    ((getTraversalOrder (some t) "postorder").Perm (allIds t) ∧
      (getTraversalOrder (some t) "postorder").length = countNodes t) := by
  have hb : binaryShapedO (some t) = true := by simpa [binaryShapedO] using h
  obtain ⟨p1, p2, p3⟩ := walk_perm_allIds (some t) hb
  have hlen : (allIdsO (some t)).length = countNodesO (some t) :=
    allIds_length_binary (some t) hb
  simp only [allIdsO, countNodesO] at hlen p1 p2 p3
  have e1 : getTraversalOrder (some t) "preorder" = walkOpt "preorder" (some t) := rfl
  have e2 : getTraversalOrder (some t) "inorder" = walkOpt "inorder" (some t) := rfl
  have e3 : getTraversalOrder (some t) "postorder" = walkOpt "postorder" (some t) := rfl
  rw [e1, e2, e3]
  exact ⟨⟨p1, by rw [p1.length_eq, hlen]⟩, ⟨p2, by rw [p2.length_eq, hlen]⟩,
         ⟨p3, by rw [p3.length_eq, hlen]⟩⟩

/-- Witness for C10 at the binary preset tree. -/
theorem claim_C10_witness :
    binaryShaped TREE_PRESETS_binary = true ∧
      (((getTraversalOrder (some TREE_PRESETS_binary) "preorder").Perm
            (allIds TREE_PRESETS_binary) ∧
          (getTraversalOrder (some TREE_PRESETS_binary) "preorder").length =
            countNodes TREE_PRESETS_binary) ∧
        ((getTraversalOrder (some TREE_PRESETS_binary) "inorder").Perm
            (allIds TREE_PRESETS_binary) ∧
          (getTraversalOrder (some TREE_PRESETS_binary) "inorder").length =
            countNodes TREE_PRESETS_binary) ∧
        ((getTraversalOrder (some TREE_PRESETS_binary) "postorder").Perm
            (allIds TREE_PRESETS_binary) ∧
          (getTraversalOrder (some TREE_PRESETS_binary) "postorder").length =
            countNodes TREE_PRESETS_binary)) :=
  ⟨by decide, claim_C10_traversal_permutation TREE_PRESETS_binary (by decide)⟩

/-! ## Claim C5: insertion and flag-clearing never mutate existing nodes -/

/-- The heap after an insertion extends the old heap: every step only
allocates at the end. -/
theorem insertBSTHeap_extends : ∀ (fuel : Nat) (h : Heap) (r : Option Nat) (v : Int)
    (c : Nat) (h1 : Heap) (a1 c1 : Nat),
    insertBSTHeap fuel h r v c = some (h1, a1, c1) → ∃ ext, h1 = h ++ ext := by
  intro fuel
  induction fuel with
  | zero =>
    intro h r v c h1 a1 c1 heq
    cases r with
    | none =>
      simp only [insertBSTHeap, Option.some.injEq, Prod.mk.injEq] at heq
      exact ⟨_, heq.1.symm⟩
    | some a => simp [insertBSTHeap] at heq
  | succ fuel ih =>
    intro h r v c h1 a1 c1 heq
    cases r with
    | none =>
      simp only [insertBSTHeap, Option.some.injEq, Prod.mk.injEq] at heq
      exact ⟨_, heq.1.symm⟩
    | some a =>
      simp only [insertBSTHeap] at heq
      cases hg : h.get? a with
      | none => rw [hg] at heq; simp at heq
      | some nd =>
        rw [hg] at heq
        by_cases hlt : ltVal v nd.value = true
        · simp only [hlt, if_true] at heq
          cases hrec : insertBSTHeap fuel h nd.left v c with
          | none => rw [hrec] at heq; simp at heq
          | some trip =>
            obtain ⟨h2, a2, c2⟩ := trip
            rw [hrec] at heq
            simp only [Option.some.injEq, Prod.mk.injEq] at heq
            obtain ⟨ext2, hext⟩ := ih h nd.left v c h2 a2 c2 hrec
            refine ⟨ext2 ++ [{ nd with isNew := some false, left := some a2 }], ?_⟩
            rw [← heq.1, hext, List.append_assoc]
        · by_cases hgt : gtVal v nd.value = true
          · simp only [hlt, hgt, if_true, if_false, Bool.false_eq_true] at heq
            cases hrec : insertBSTHeap fuel h nd.right v c with
            | none => rw [hrec] at heq; simp at heq
            | some trip =>
              obtain ⟨h2, a2, c2⟩ := trip
              rw [hrec] at heq
              simp only [Option.some.injEq, Prod.mk.injEq] at heq
              obtain ⟨ext2, hext⟩ := ih h nd.right v c h2 a2 c2 hrec
              refine ⟨ext2 ++ [{ nd with isNew := some false, right := some a2 }], ?_⟩
              rw [← heq.1, hext, List.append_assoc]
          · simp only [hlt, hgt, if_false, Bool.false_eq_true, Option.some.injEq,
                       Prod.mk.injEq] at heq
            exact ⟨_, heq.1.symm⟩

/-- The heap after a flag clearing extends the old heap. -/
theorem clearNewFlagsHeap_extends : ∀ (fuel : Nat) (h : Heap) (a : Nat)
    (h1 : Heap) (a1 : Nat),
    clearNewFlagsHeap fuel h a = some (h1, a1) → ∃ ext, h1 = h ++ ext := by
  intro fuel
  induction fuel with
  | zero => intro h a h1 a1 heq; simp [clearNewFlagsHeap] at heq
  | succ fuel ih =>
    intro h a h1 a1 heq
    simp only [clearNewFlagsHeap] at heq
    split at heq
    · exact absurd heq (by simp)
    · rename_i nd hg
      split at heq
      · exact absurd heq (by simp)
      · rename_i pA hA lA hstep1
        split at heq
        · exact absurd heq (by simp)
        · rename_i pB hB rB hstep2
          simp only [Option.some.injEq, Prod.mk.injEq] at heq
          have extend1 : ∃ extA, hA = h ++ extA := by
            split at hstep1
            · simp only [Option.some.injEq, Prod.mk.injEq] at hstep1
              exact ⟨[], by simp [hstep1.1]⟩
            · rename_i la hla
              cases hrec : clearNewFlagsHeap fuel h la with
              | none => rw [hrec] at hstep1; simp at hstep1
              | some p =>
                rw [hrec] at hstep1
                simp only [Option.map, Option.some.injEq, Prod.mk.injEq] at hstep1
                obtain ⟨ext1, hext1⟩ := ih h la p.1 p.2 hrec
                exact ⟨ext1, by rw [← hstep1.1, hext1]⟩
          obtain ⟨extA, hextA⟩ := extend1
          have extend2 : ∃ extB, hB = hA ++ extB := by
            split at hstep2
            · simp only [Option.some.injEq, Prod.mk.injEq] at hstep2
              exact ⟨[], by simp [hstep2.1]⟩
            · rename_i ra hra
              cases hrec : clearNewFlagsHeap fuel hA ra with
              | none => rw [hrec] at hstep2; simp at hstep2
              | some p =>
                rw [hrec] at hstep2
                simp only [Option.map, Option.some.injEq, Prod.mk.injEq] at hstep2
                obtain ⟨ext2, hext2⟩ := ih hA ra p.1 p.2 hrec
                exact ⟨ext2, by rw [← hstep2.1, hext2]⟩
          obtain ⟨extB, hextB⟩ := extend2
          refine ⟨extA ++ (extB ++
            [{ nd with isNew := some false, left := lA, right := rB }]), ?_⟩
          rw [← heq.1, hextB, hextA]
          simp [List.append_assoc]

/-- Claim C5: insertion and flag-clearing have no side effects on their
input.  On the explicit heap, whenever `insertBSTHeap` or
`clearNewFlagsHeap` succeeds, every pre-existing heap cell — in particular
every node of the prior tree — still holds exactly its old record; the
functions only allocate new records. -/
theorem claim_C5_no_mutation (fuel : Nat) (h : Heap) (r : Option Nat) (v : Int) (c : Nat)
    (a i : Nat) (hi : i < h.length) :
    (∀ h1 a1 c1, insertBSTHeap fuel h r v c = some (h1, a1, c1) →
      h1.get? i = h.get? i) ∧
    (∀ h2 a2, clearNewFlagsHeap fuel h a = some (h2, a2) →
      h2.get? i = h.get? i) := by
  constructor
  · intro h1 a1 c1 heq
    obtain ⟨ext, hext⟩ := insertBSTHeap_extends fuel h r v c h1 a1 c1 heq
    rw [hext]
    exact List.get?_append hi
  · intro h2 a2 heq
    obtain ⟨ext, hext⟩ := clearNewFlagsHeap_extends fuel h a h2 a2 heq
    rw [hext]
    exact List.get?_append hi

/-- Witness for C5: a one-node heap; re-inserting its value and clearing
its flags both leave cell 0 untouched. -/
theorem claim_C5_witness :
    (0 : Nat) <
      ([⟨"1", .num 5, none, none, none, none, none, none, some true⟩] : Heap).length ∧
    (([⟨"1", .num 5, none, none, none, none, none, none, some true⟩,
       ⟨"1", .num 5, none, none, none, none, none, none, some false⟩] : Heap).get? 0 =
        ([⟨"1", .num 5, none, none, none, none, none, none, some true⟩] : Heap).get? 0 ∧
     ([⟨"1", .num 5, none, none, none, none, none, none, some true⟩,
       ⟨"1", .num 5, none, none, none, none, none, none, some false⟩] : Heap).get? 0 =
        ([⟨"1", .num 5, none, none, none, none, none, none, some true⟩] : Heap).get? 0) :=
  ⟨by decide,
   (claim_C5_no_mutation 1
      [⟨"1", .num 5, none, none, none, none, none, none, some true⟩]
      (some 0) 5 2 0 0 (by decide)).1 _ 1 2 rfl,
   (claim_C5_no_mutation 1
      [⟨"1", .num 5, none, none, none, none, none, none, some true⟩]
      (some 0) 5 2 0 0 (by decide)).2 _ 1 rfl⟩

/-! ## Claim C4: layout sibling spans and x bounds -/

/-- Every band at index at least `i` lies to the right of a span ending by
`s0 + i * step`. -/
theorem childBands_all_disjoint : ∀ (ns : List Node) (s0 step : ℚ) (i : Nat) (a b : ℚ),
    0 ≤ step → b ≤ s0 + (i : ℚ) * step →
    (((childBands ns s0 step i).map Prod.fst).all (fun q => spansDisjoint (a, b) q)) = true := by
  intro ns
  induction ns with
  | nil => intro s0 step i a b _ _; rfl
  | cons ch rest ih =>
    intro s0 step i a b hstep hb
    simp only [childBands, List.map_cons, List.all_cons, Bool.and_eq_true]
    constructor
    · simp only [spansDisjoint, decide_eq_true_eq]
      have h1 : min b (s0 + ((i : ℚ) + 1) * step) ≤ b := min_le_left _ _
      have h2 : (s0 + (i : ℚ) * step) ≤ max a (s0 + (i : ℚ) * step) := le_max_right _ _
      calc min b (s0 + ((i : ℚ) + 1) * step) ≤ b := h1
        _ ≤ s0 + (i : ℚ) * step := hb
        _ ≤ max a (s0 + (i : ℚ) * step) := h2
    · apply ih s0 step (i + 1) a b hstep
      push_cast
      have : s0 + (i : ℚ) * step ≤ s0 + ((i : ℚ) + 1) * step := by nlinarith
      linarith

/-- The bands allotted to a child list are pairwise non-overlapping. -/
theorem childBands_pairwise : ∀ (ns : List Node) (s0 step : ℚ) (i : Nat),
    0 ≤ step → pairwiseDisjointB ((childBands ns s0 step i).map Prod.fst) = true := by
  intro ns
  induction ns with
  | nil => intro s0 step i _; rfl
  | cons ch rest ih =>
    intro s0 step i hstep
    simp only [childBands, List.map_cons, pairwiseDisjointB, Bool.and_eq_true]
    constructor
    · apply childBands_all_disjoint rest s0 step (i + 1)
        (s0 + (i : ℚ) * step) (s0 + ((i : ℚ) + 1) * step) hstep
      push_cast
      linarith
    · exact ih s0 step (i + 1) hstep

/-- Membership form of `noMiddleL`. -/
theorem noMiddleL_mem : ∀ (ns : List Node), noMiddleL ns = true →
    ∀ ch ∈ ns, noMiddle ch = true := by
  intro ns
  induction ns with
  | nil => intro _ ch hch; simp at hch
  | cons n rest ih =>
    intro h ch hch
    simp only [noMiddleL, Bool.and_eq_true] at h
    rcases List.mem_cons.mp hch with hch | hch
    · subst hch; exact h.1
    · exact ih h.2 ch hch

/-- Membership form of `xsClearL`. -/
theorem xsClearL_mem : ∀ (ns : List Node), xsClearL ns = true →
    ∀ ch ∈ ns, xsClear ch = true := by
  intro ns
  induction ns with
  | nil => intro _ ch hch; simp at hch
  | cons n rest ih =>
    intro h ch hch
    simp only [xsClearL, Bool.and_eq_true] at h
    rcases List.mem_cons.mp hch with hch | hch
    · subst hch; exact h.1
    · exact ih h.2 ch hch

/-- Sibling non-overlap holds inside every band of a child list, given it
holds for each member on every well-ordered span. -/
theorem layoutSpansOKBands_of : ∀ (ns : List Node) (s0 step : ℚ) (i : Nat),
    (∀ ch ∈ ns, ∀ s e : ℚ, s ≤ e → layoutSpansOK ch s e = true) → 0 ≤ step →
    layoutSpansOKBands ns s0 step i = true := by
  intro ns
  induction ns with
  | nil => intro s0 step i _ _; rfl
  | cons ch rest ih =>
    intro s0 step i hmem hstep
    simp only [layoutSpansOKBands, Bool.and_eq_true]
    constructor
    · exact hmem ch (by simp) _ _ (by nlinarith)
    · exact ih s0 step (i + 1) (fun c hc => hmem c (by simp [hc])) hstep

/-- For every tree without middle children, the `MiniTreeVisualizer` layout
allots pairwise non-overlapping spans to siblings, at every node. -/
theorem layoutSpansOK_of_noMiddle : ∀ t : Node, noMiddle t = true →
    ∀ s e : ℚ, s ≤ e → layoutSpansOK t s e = true := by
  intro t
  induction t using nodeFullInd with
  | _ i v l r m cs x y f ihl ihr ihm ihcs =>
    intro hnm s e hse
    simp only [noMiddle, Bool.and_eq_true, Option.isNone_iff_eq_none] at hnm
    obtain ⟨⟨⟨hm, hl⟩, hr⟩, hcs⟩ := hnm
    subst hm
    cases cs with
    | some children =>
      have hstep : (0 : ℚ) ≤ (e - s) / (children.length : ℚ) :=
        div_nonneg (by linarith) (by positivity)
      simp only [layoutSpansOK, childSpans, Bool.and_eq_true]
      constructor
      · exact childBands_pairwise children s ((e - s) / (children.length : ℚ)) 0 hstep
      · refine layoutSpansOKBands_of children s ((e - s) / (children.length : ℚ)) 0 ?_ hstep
        intro ch hch s1 e1 hse1
        have hnm1 : noMiddle ch = true := by
          simp only [noMiddleC] at hcs
          exact noMiddleL_mem children hcs ch hch
        exact ihcs children rfl ch hch hnm1 s1 e1 hse1
    | none =>
      have hx1 : s ≤ (s + e) / 2 := by linarith
      have hx2 : (s + e) / 2 ≤ e := by linarith
      simp only [layoutSpansOK, childSpans, Bool.and_eq_true]
      cases l with
      | none =>
        cases r with
        | none =>
          constructor
          · rfl
          · simp only [layoutSpansOKO, Bool.and_eq_true]
            refine ⟨⟨?_, ?_⟩, ?_⟩ <;> first | rfl | trivial
        | some nr =>
          have hbr : noMiddle nr = true := by simpa [noMiddleO] using hr
          constructor
          · simp [pairwiseDisjointB]
          · simp only [layoutSpansOKO, Bool.and_eq_true]
            refine ⟨⟨?_, ?_⟩, ?_⟩
            · first | rfl | trivial
            · first | rfl | trivial
            · exact ihr nr rfl hbr _ _ hx2
      | some nl =>
        have hbl : noMiddle nl = true := by simpa [noMiddleO] using hl
        cases r with
        | none =>
          constructor
          · simp [pairwiseDisjointB]
          · simp only [layoutSpansOKO, Bool.and_eq_true]
            refine ⟨⟨?_, ?_⟩, ?_⟩
            · exact ihl nl rfl hbl _ _ hx1
            · first | rfl | trivial
            · first | rfl | trivial
        | some nr =>
          have hbr : noMiddle nr = true := by simpa [noMiddleO] using hr
          constructor
          · simp only [List.map, List.cons_append, List.nil_append, pairwiseDisjointB,
                       List.all_cons, List.all_nil, spansDisjoint, Bool.and_eq_true,
                       decide_eq_true_eq]
            refine ⟨⟨?_, trivial⟩, trivial, trivial⟩
            exact le_trans (min_le_left _ _) (le_max_right _ _)
          · simp only [layoutSpansOKO, Bool.and_eq_true]
            refine ⟨⟨?_, ?_⟩, ?_⟩
            · exact ihl nl rfl hbl _ _ hx1
            · first | rfl | trivial
            · exact ihr nr rfl hbr _ _ hx2

/-- A coordinate-free tree contributes no `x` values. -/
theorem allXs_of_xsClear : ∀ t : Node, xsClear t = true → allXs t = [] := by
  intro t
  induction t using nodeFullInd with
  | _ i v l r m cs x y f ihl ihr ihm ihcs =>
    intro hxc
    simp only [xsClear, Bool.and_eq_true, Option.isNone_iff_eq_none] at hxc
    obtain ⟨⟨⟨⟨hx, hl⟩, hr⟩, hm⟩, hcs⟩ := hxc
    subst hx
    simp only [allXs, List.nil_append, List.append_eq_nil]
    have goall : allXsO l = [] := by
      cases l with
      | none => rfl
      | some nl => simpa [allXsO] using ihl nl rfl (by simpa [xsClearO] using hl)
    have goalr : allXsO r = [] := by
      cases r with
      | none => rfl
      | some nr => simpa [allXsO] using ihr nr rfl (by simpa [xsClearO] using hr)
    have goalm : allXsO m = [] := by
      cases m with
      | none => rfl
      | some nm => simpa [allXsO] using ihm nm rfl (by simpa [xsClearO] using hm)
    have goalc : allXsC cs = [] := by
      cases cs with
      | none => rfl
      | some ns =>
        simp only [xsClearC] at hcs
        simp only [allXsC]
        have : ∀ ch ∈ ns, xsClear ch = true := xsClearL_mem ns hcs
        have hmem := ihcs ns rfl
        clear hcs ihcs
        induction ns with
        | nil => rfl
        | cons ch rest ihrest =>
          simp only [allXsL, List.append_eq_nil]
          constructor
          · exact hmem ch (by simp) (this ch (by simp))
          · exact ihrest (fun c hc => this c (by simp [hc])) (fun c hc => hmem c (by simp [hc]))
    exact ⟨⟨⟨goall, goalm⟩, goalr⟩, goalc⟩

/-- All `x` coordinates assigned inside the bands of a child list stay
within the enclosing span. -/
theorem allXs_bands_bound : ∀ (ns : List Node) (d : Nat) (s0 step s e : ℚ) (i : Nat),
    (∀ ch ∈ ns, noMiddle ch = true → xsClear ch = true →
      ∀ (d1 : Nat) (s1 e1 : ℚ), s1 ≤ e1 →
        ∀ q ∈ allXs (calculatePositions ch d1 s1 e1), s1 ≤ q ∧ q ≤ e1) →
    (∀ ch ∈ ns, noMiddle ch = true) → (∀ ch ∈ ns, xsClear ch = true) →
    0 ≤ step → s ≤ s0 + (i : ℚ) * step → s0 + ((i : ℚ) + ns.length) * step ≤ e →
    ∀ q ∈ allXsL (positionChildren ns d s0 step i), s ≤ q ∧ q ≤ e := by
  intro ns
  induction ns with
  | nil => intro d s0 step s e i _ _ _ _ _ _ q hq; simp [positionChildren, allXsL] at hq
  | cons ch rest ih =>
    intro d s0 step s e i hprop hnm hxc hstep hlo hhi q hq
    simp only [positionChildren, allXsL, List.mem_append] at hq
    have hlen : ((ch :: rest).length : ℚ) = (rest.length : ℚ) + 1 := by
      push_cast [List.length_cons]; ring
    rcases hq with hq | hq
    · have hband : s0 + (i : ℚ) * step ≤ s0 + ((i : ℚ) + 1) * step := by nlinarith
      have hbande : s0 + ((i : ℚ) + 1) * step ≤ e := by
        rw [hlen] at hhi
        nlinarith [Nat.cast_nonneg (α := ℚ) rest.length]
      obtain ⟨hq1, hq2⟩ := hprop ch (by simp) (hnm ch (by simp)) (hxc ch (by simp))
        d _ _ (by nlinarith) q hq
      exact ⟨le_trans hlo hq1, le_trans hq2 hbande⟩
    · apply ih d s0 step s e (i + 1)
        (fun c hc => hprop c (by simp [hc]))
        (fun c hc => hnm c (by simp [hc]))
        (fun c hc => hxc c (by simp [hc])) hstep ?_ ?_ q hq
      · push_cast
        nlinarith
      · push_cast
        rw [hlen] at hhi
        nlinarith

/-- For every tree without middle children and without preassigned
coordinates, all `x` positions assigned by the `MiniTreeVisualizer` layout
lie within the span given to the root. -/
theorem allXs_calcPos_bound : ∀ t : Node, noMiddle t = true → xsClear t = true →
    ∀ (d : Nat) (s e : ℚ), s ≤ e →
      ∀ q ∈ allXs (calculatePositions t d s e), s ≤ q ∧ q ≤ e := by
  intro t
  induction t using nodeFullInd with
  | _ i v l r m cs x y f ihl ihr ihm ihcs =>
    intro hnm hxc d s e hse q hq
    simp only [noMiddle, Bool.and_eq_true, Option.isNone_iff_eq_none] at hnm
    obtain ⟨⟨⟨hm, hl⟩, hr⟩, hcs⟩ := hnm
    simp only [xsClear, Bool.and_eq_true, Option.isNone_iff_eq_none] at hxc
    obtain ⟨⟨⟨⟨hx, hxl⟩, hxr⟩, hxm⟩, hxcs⟩ := hxc
    subst hm
    have hmid1 : s ≤ (s + e) / 2 := by linarith
    have hmid2 : (s + e) / 2 ≤ e := by linarith
    have hrawl : allXsO l = [] := by
      cases l with
      | none => rfl
      | some nl =>
        simpa [allXsO] using allXs_of_xsClear nl (by simpa [xsClearO] using hxl)
    have hrawr : allXsO r = [] := by
      cases r with
      | none => rfl
      | some nr =>
        simpa [allXsO] using allXs_of_xsClear nr (by simpa [xsClearO] using hxr)
    have hm0 : q = (s + e) / 2 → s ≤ q ∧ q ≤ e := by
      intro hh; subst hh; exact ⟨hmid1, hmid2⟩
    cases cs with
    | some children =>
      have hbands : q ∈ allXsL (positionChildren children (d + 1) s
          ((e - s) / (children.length : ℚ)) 0) → s ≤ q ∧ q ≤ e := by
        intro hh
        have hstep : (0 : ℚ) ≤ (e - s) / (children.length : ℚ) :=
          div_nonneg (by linarith) (by positivity)
        refine allXs_bands_bound children (d + 1) s ((e - s) / (children.length : ℚ))
          s e 0 ?_ ?_ ?_ hstep (by simp) ?_ q hh
        · intro ch hch hnm1 hxc1 d1 s1 e1 hse1
          exact ihcs children rfl ch hch hnm1 hxc1 d1 s1 e1 hse1
        · simp only [noMiddleC] at hcs
          exact noMiddleL_mem children hcs
        · simp only [xsClearC] at hxcs
          exact xsClearL_mem children hxcs
        · rcases Nat.eq_zero_or_pos children.length with hlen | hlen
          · simp [hlen]; linarith
          · have hne : ((children.length : ℚ)) ≠ 0 := by positivity
            push_cast
            have hcancel : ((0 : ℚ) + (children.length : ℚ)) *
                ((e - s) / (children.length : ℚ)) = e - s := by
              field_simp
            rw [hcancel]
            linarith
      simp only [calculatePositions, allXs, allXsO, allXsC, hrawl, hrawr,
                 List.nil_append, List.append_nil, List.cons_append, List.mem_cons,
                 List.mem_append, List.not_mem_nil, or_false, false_or] at hq
      tauto
    | none =>
      cases l with
      | none =>
        cases r with
        | none =>
          simp only [calculatePositions, allXs, allXsO, allXsC, calculatePositionsO,
                     List.append_nil, List.nil_append, List.mem_cons,
                     List.not_mem_nil, or_false, false_or] at hq
          exact hm0 hq
        | some nr =>
          have hm2 : q ∈ allXs (calculatePositions nr (d + 1) ((s + e) / 2) e) →
              s ≤ q ∧ q ≤ e := by
            intro hh
            obtain ⟨hq1, hq2⟩ := ihr nr rfl (by simpa [noMiddleO] using hr)
              (by simpa [xsClearO] using hxr) (d + 1) _ _ hmid2 q hh
            exact ⟨le_trans hmid1 hq1, hq2⟩
          simp only [calculatePositions, allXs, allXsO, allXsC, calculatePositionsO,
                     List.append_nil, List.nil_append, List.mem_cons, List.mem_append,
                     List.not_mem_nil, or_false, false_or] at hq
          tauto
      | some nl =>
        have hm1 : q ∈ allXs (calculatePositions nl (d + 1) s ((s + e) / 2)) →
            s ≤ q ∧ q ≤ e := by
          intro hh
          obtain ⟨hq1, hq2⟩ := ihl nl rfl (by simpa [noMiddleO] using hl)
            (by simpa [xsClearO] using hxl) (d + 1) _ _ hmid1 q hh
          exact ⟨hq1, le_trans hq2 hmid2⟩
        cases r with
        | none =>
          simp only [calculatePositions, allXs, allXsO, allXsC, calculatePositionsO,
                     List.append_nil, List.nil_append, List.mem_cons, List.mem_append,
                     List.not_mem_nil, or_false, false_or] at hq
          tauto
        | some nr =>
          have hm2 : q ∈ allXs (calculatePositions nr (d + 1) ((s + e) / 2) e) →
              s ≤ q ∧ q ≤ e := by
            intro hh
            obtain ⟨hq1, hq2⟩ := ihr nr rfl (by simpa [noMiddleO] using hr)
              (by simpa [xsClearO] using hxr) (d + 1) _ _ hmid2 q hh
            exact ⟨le_trans hmid1 hq1, hq2⟩
          simp only [calculatePositions, allXs, allXsO, allXsC, calculatePositionsO,
                     List.append_nil, List.nil_append, List.mem_cons, List.mem_append,
                     List.not_mem_nil, or_false, false_or] at hq
          tauto

/-- List form of `allXs_of_xsClear`. -/
theorem allXsL_of_xsClearL : ∀ ns : List Node, xsClearL ns = true → allXsL ns = [] := by
  intro ns
  induction ns with
  | nil => intro _; rfl
  | cons ch rest ih =>
    intro h
    simp only [xsClearL, Bool.and_eq_true] at h
    simp only [allXsL, List.append_eq_nil]
    exact ⟨allXs_of_xsClear ch h.1, ih h.2⟩

/-- The `TreeVisualizer` layout allots non-overlapping spans to the left
and right children of every node, for every tree. -/
theorem layoutSpansOKMain_all : ∀ t : Node, ∀ s e : ℚ, s ≤ e →
    layoutSpansOKMain t s e = true := by
  intro t
  induction t using nodeFullInd with
  | _ i v l r m cs x y f ihl ihr ihm ihcs =>
    intro s e hse
    have hx1 : s ≤ (s + e) / 2 := by linarith
    have hx2 : (s + e) / 2 ≤ e := by linarith
    simp only [layoutSpansOKMain, Bool.and_eq_true]
    refine ⟨⟨?_, ?_⟩, ?_⟩
    · cases l with
      | none => cases r <;> simp [pairwiseDisjointB]
      | some nl =>
        cases r with
        | none => simp [pairwiseDisjointB]
        | some nr =>
          simp only [List.append_eq, List.cons_append, List.nil_append, pairwiseDisjointB,
                     List.all_cons, List.all_nil, spansDisjoint, Bool.and_eq_true,
                     decide_eq_true_eq, and_true, true_and]
          exact le_trans (min_le_left ((s + e) / 2) e) (le_max_right s ((s + e) / 2))
    · cases l with
      | none => rfl
      | some nl => exact ihl nl rfl _ _ hx1
    · cases r with
      | none => rfl
      | some nr => exact ihr nr rfl _ _ hx2

/-- All `x` positions assigned by the `TreeVisualizer` layout to a
coordinate-free tree lie within the span given to the root. -/
theorem allXs_calcMain_bound : ∀ t : Node, xsClear t = true →
    ∀ (d : Nat) (s e : ℚ), s ≤ e →
      ∀ q ∈ allXs (calculatePositionsMain t d s e), s ≤ q ∧ q ≤ e := by
  intro t
  induction t using nodeFullInd with
  | _ i v l r m cs x y f ihl ihr ihm ihcs =>
    intro hxc d s e hse q hq
    simp only [xsClear, Bool.and_eq_true, Option.isNone_iff_eq_none] at hxc
    obtain ⟨⟨⟨⟨hx, hxl⟩, hxr⟩, hxm⟩, hxcs⟩ := hxc
    have hmid1 : s ≤ (s + e) / 2 := by linarith
    have hmid2 : (s + e) / 2 ≤ e := by linarith
    have hm0 : q = (s + e) / 2 → s ≤ q ∧ q ≤ e := by
      intro hh; subst hh; exact ⟨hmid1, hmid2⟩
    have hrawm : allXsO m = [] := by
      cases m with
      | none => rfl
      | some nm =>
        simpa [allXsO] using allXs_of_xsClear nm (by simpa [xsClearO] using hxm)
    have hrawc : allXsC cs = [] := by
      cases cs with
      | none => rfl
      | some ns =>
        simp only [xsClearC] at hxcs
        simpa [allXsC] using allXsL_of_xsClearL ns hxcs
    have hml : ∀ nl, l = some nl →
        ∀ hh : q ∈ allXs (calculatePositionsMain nl (d + 1) s ((s + e) / 2)),
          s ≤ q ∧ q ≤ e := by
      intro nl hnl hh
      subst hnl
      obtain ⟨hq1, hq2⟩ := ihl nl rfl (by simpa [xsClearO] using hxl)
        (d + 1) _ _ hmid1 q hh
      exact ⟨hq1, le_trans hq2 hmid2⟩
    have hmr : ∀ nr, r = some nr →
        ∀ hh : q ∈ allXs (calculatePositionsMain nr (d + 1) ((s + e) / 2) e),
          s ≤ q ∧ q ≤ e := by
      intro nr hnr hh
      subst hnr
      obtain ⟨hq1, hq2⟩ := ihr nr rfl (by simpa [xsClearO] using hxr)
        (d + 1) _ _ hmid2 q hh
      exact ⟨le_trans hmid1 hq1, hq2⟩
    cases l with
    | none =>
      cases r with
      | none =>
        simp only [calculatePositionsMain, allXs, allXsO, calculatePositionsMainO,
                   hrawm, hrawc, List.append_nil, List.nil_append, List.mem_cons,
                   List.not_mem_nil, or_false, false_or] at hq
        exact hm0 hq
      | some nr =>
        simp only [calculatePositionsMain, allXs, allXsO, calculatePositionsMainO,
                   hrawm, hrawc, List.append_nil, List.nil_append, List.cons_append,
                   List.mem_cons, List.mem_append, List.not_mem_nil, or_false,
                   false_or] at hq
        rcases hq with hq | hq
        · exact hm0 hq
        · exact hmr nr rfl hq
    | some nl =>
      cases r with
      | none =>
        simp only [calculatePositionsMain, allXs, allXsO, calculatePositionsMainO,
                   hrawm, hrawc, List.append_nil, List.nil_append, List.cons_append,
                   List.mem_cons, List.mem_append, List.not_mem_nil, or_false,
                   false_or] at hq
        rcases hq with hq | hq
        · exact hm0 hq
        · exact hml nl rfl hq
      | some nr =>
        simp only [calculatePositionsMain, allXs, allXsO, calculatePositionsMainO,
                   hrawm, hrawc, List.append_nil, List.nil_append, List.cons_append,
                   List.mem_cons, List.mem_append, List.not_mem_nil, or_false,
                   false_or] at hq
        have h1 := hml nl rfl
        have h2 := hmr nr rfl
        tauto

/-- Claim C4 as stated is false at a concrete input: for the ternary preset
tree on the MiniTreeVisualizer canvas width 200, the span allotted to the
middle child (`85..115`) overlaps the span allotted to the left child
(`0..100`), so sibling subtree spans do overlap. -/
theorem claim_C4_counterexample :
    layoutSpansOK TREE_PRESETS_ternary 0 200 = false := by
  simp [layoutSpansOK, layoutSpansOKO, layoutSpansOKBands, childSpans, childBands,
        pairwiseDisjointB, spansDisjoint, TREE_PRESETS_ternary]
  norm_num

/-- Claim C4 amended: for every tree without middle children (binary trees
and general trees with child lists) carrying no preassigned coordinates,
and every canvas width `W ≥ 0`, both layout functions allot pairwise
non-overlapping spans (disjoint interiors) to sibling subtrees at every
node, and every assigned `x` lies within `[0, W]`.  Trees with a middle
child violate both parts, as the fixed 30-wide middle band overlaps the
half-spans. -/
theorem claim_C4_amended (t : Node) (W : ℚ) (hW : 0 ≤ W)
    (hnm : noMiddle t = true) (hxc : xsClear t = true) :
    (layoutSpansOK t 0 W = true ∧
      ∀ q ∈ allXs (calculatePositions t 0 0 W), 0 ≤ q ∧ q ≤ W) ∧
    (layoutSpansOKMain t 0 W = true ∧
      ∀ q ∈ allXs (calculatePositionsMain t 0 0 W), 0 ≤ q ∧ q ≤ W) :=
  ⟨⟨layoutSpansOK_of_noMiddle t hnm 0 W hW,
    fun q hq => allXs_calcPos_bound t hnm hxc 0 0 W hW q hq⟩,
   ⟨layoutSpansOKMain_all t 0 W hW,
    fun q hq => allXs_calcMain_bound t hxc 0 0 W hW q hq⟩⟩

/-- Witness for the amended C4 at the general preset tree (nested child
lists) on canvas width 200. -/
theorem claim_C4_amended_witness :
    ((0 : ℚ) ≤ 200 ∧ noMiddle TREE_PRESETS_general = true ∧
      xsClear TREE_PRESETS_general = true) ∧
    ((layoutSpansOK TREE_PRESETS_general 0 200 = true ∧
        ∀ q ∈ allXs (calculatePositions TREE_PRESETS_general 0 0 200), 0 ≤ q ∧ q ≤ 200) ∧
      (layoutSpansOKMain TREE_PRESETS_general 0 200 = true ∧
        ∀ q ∈ allXs (calculatePositionsMain TREE_PRESETS_general 0 0 200),
          0 ≤ q ∧ q ≤ 200)) :=
  ⟨⟨by norm_num, by decide, by decide⟩,
   claim_C4_amended TREE_PRESETS_general 200 (by norm_num) (by decide) (by decide)⟩
